import Mathlib

/-!
Verification of the Coptic-to-Latin transliteration engine found in
src/transliterator.py.  The engine is embedded shallowly: Python strings
become `List Char`, the regex passes of `_apply_contextual_rules` become an
ordered list of rule objects interpreted by an executable rewriting
function, and the base character map becomes a fold of single-character
replacements, exactly in the dictionary insertion order of the source.

Modelling notes on library calls made by the source:
 - `unicodedata.normalize("NFKD", text)` is modelled as the identity map:
   on the repertoire handled by the engine (Coptic letters, ASCII, and the
   phonetic replacement characters) NFKD decomposition is the identity.
 - the combining-mark filter keeps the source shape (a filter over a
   combining predicate); the predicate covers the combining ranges relevant
   to Coptic text.
 - `str.lower()` is modelled character-by-character through a lowering
   table covering ASCII and every Coptic letter of the engine tables; all
   other characters are fixed points, as they are in the source for the
   repertoire exercised here.
 - the regex word-boundary assertion is modelled for the positions where
   the source uses it: every use places the assertion directly after a
   word character, so it holds exactly when the following character is
   absent or is not a word character.
-/

namespace CopticTranslit

/-- Lowering table modelling `str.lower()`: ASCII upper case and the
upper-case form of every Coptic letter appearing in the engine tables.
Characters not listed are fixed points. -/
def lower_table : List (Char × Char) :=
  [ ('A', 'a'), ('B', 'b'), ('C', 'c'), ('D', 'd'), ('E', 'e'), ('F', 'f'),
    ('G', 'g'), ('H', 'h'), ('I', 'i'), ('J', 'j'), ('K', 'k'), ('L', 'l'),
    ('M', 'm'), ('N', 'n'), ('O', 'o'), ('P', 'p'), ('Q', 'q'), ('R', 'r'),
    ('S', 's'), ('T', 't'), ('U', 'u'), ('V', 'v'), ('W', 'w'), ('X', 'x'),
    ('Y', 'y'), ('Z', 'z'),
    ('Ⲁ', 'ⲁ'), ('Ⲃ', 'ⲃ'), ('Ⲅ', 'ⲅ'), ('Ⲇ', 'ⲇ'), ('Ⲉ', 'ⲉ'), ('Ⲋ', 'ⲋ'),
    ('Ⲍ', 'ⲍ'), ('Ⲏ', 'ⲏ'), ('Ⲑ', 'ⲑ'), ('Ⲓ', 'ⲓ'), ('Ⲕ', 'ⲕ'), ('Ⲗ', 'ⲗ'),
    ('Ⲙ', 'ⲙ'), ('Ⲛ', 'ⲛ'), ('Ⲝ', 'ⲝ'), ('Ⲟ', 'ⲟ'), ('Ⲡ', 'ⲡ'), ('Ⲣ', 'ⲣ'),
    ('Ⲥ', 'ⲥ'), ('Ⲧ', 'ⲧ'), ('Ⲩ', 'ⲩ'), ('Ⲫ', 'ⲫ'), ('Ⲭ', 'ⲭ'), ('Ⲯ', 'ⲯ'),
    ('Ⲱ', 'ⲱ'),
    ('Ϣ', 'ϣ'), ('Ϥ', 'ϥ'), ('Ϧ', 'ϧ'), ('Ϩ', 'ϩ'), ('Ϫ', 'ϫ'), ('Ϭ', 'ϭ'),
    ('Ϯ', 'ϯ') ]

/-- Lower-casing of one character, via `lower_table`. -/
def pyLower (c : Char) : Char :=
  match lower_table.find? (fun p => p.1 == c) with
  | some p => p.2
  | none => c

/-- `str.lower()` over a whole string. -/
def pyLowerStr (s : List Char) : List Char :=
  s.map pyLower

/-- `unicodedata.combining(c) != 0`, modelled for the ranges relevant to
Coptic text: the combining diacritical marks block and the Coptic
combining marks. -/
def combining (c : Char) : Bool :=
  (decide (0x0300 ≤ c.toNat) && decide (c.toNat ≤ 0x036F)) ||
  (decide (0x2CEF ≤ c.toNat) && decide (c.toNat ≤ 0x2CF1))

/-- `unicodedata.normalize("NFKD", text)`, modelled as the identity: NFKD
is the identity on the repertoire the engine handles (source line 86). -/
def normalizeNFKD (s : List Char) : List Char := s

/-- Removal of combining diacritics (source line 88). -/
def stripCombining (s : List Char) : List Char :=
  s.filter (fun c => !combining c)

/-- The regex word-character class for the repertoire of the engine:
ASCII alphanumerics and underscore, Coptic letters (both Unicode blocks),
and the phonetic letters produced by the rules. -/
def isWordChar (c : Char) : Bool :=
  (decide (0x61 ≤ c.toNat) && decide (c.toNat ≤ 0x7A)) ||
  (decide (0x41 ≤ c.toNat) && decide (c.toNat ≤ 0x5A)) ||
  (decide (0x30 ≤ c.toNat) && decide (c.toNat ≤ 0x39)) ||
  (c == '_') ||
  (decide (0x2C80 ≤ c.toNat) && decide (c.toNat ≤ 0x2CE4)) ||
  (decide (0x2CEB ≤ c.toNat) && decide (c.toNat ≤ 0x2CEE)) ||
  (decide (0x2CF2 ≤ c.toNat) && decide (c.toNat ≤ 0x2CF3)) ||
  (decide (0x03E2 ≤ c.toNat) && decide (c.toNat ≤ 0x03EF)) ||
  "æəɑːɪ".data.contains c

/-- The word-boundary assertion at a position whose preceding character is
a word character (this is the only way the source uses it): it holds when
the text ends there or the next character is not a word character. -/
def boundaryAfter : List Char → Bool
  | [] => true
  | d :: _ => !isWordChar d

/-- Lookahead conditions of the contextual rules, one constructor per
regex shape appearing in the source. -/
inductive Look where
  | always : Look
  | boundary : Look
  | justChar : Char → Look
  | oneOf : List Char → Look
  | charBoundary : Char → Look
  | twoBoundary : Char → Char → Look
deriving DecidableEq

/-- Evaluation of a lookahead on the rest of the string after the trigger
character. -/
def evalLook : Look → List Char → Bool
  | Look.always, _ => true
  | Look.boundary, rest => boundaryAfter rest
  | Look.justChar x, rest =>
      match rest with
      | d :: _ => d == x
      | [] => false
  | Look.oneOf xs, rest =>
      match rest with
      | d :: _ => xs.contains d
      | [] => false
  | Look.charBoundary x, rest =>
      match rest with
      | d :: r => d == x && boundaryAfter r
      | [] => false
  | Look.twoBoundary x y, rest =>
      match rest with
      | d :: e :: r => d == x && e == y && boundaryAfter r
      | _ => false

/-- One `re.sub` pass for a single trigger character with a zero-width
lookahead: every occurrence of the trigger whose following context
satisfies the lookahead is replaced; the lookahead reads the original
following text, which `re.sub` has not yet rewritten. -/
def applyCtx (trig : Char) (look : Look) (repl : List Char) : List Char → List Char
  | [] => []
  | c :: rest =>
      (if c == trig && evalLook look rest then repl else [c]) ++ applyCtx trig look repl rest

/-- One `re.sub` pass for a literal multi-character pattern, scanning left
to right with non-overlapping matches.  The fuel argument bounds the
number of scanning steps; each step consumes at least one character, so
fuel equal to the length of the string is always sufficient. -/
def replaceSeqFuel (pat repl : List Char) : Nat → List Char → List Char
  | 0, s => s
  | _ + 1, [] => []
  | fuel + 1, c :: rest =>
      if pat.isPrefixOf (c :: rest) then
        repl ++ replaceSeqFuel pat repl fuel (List.drop (pat.length - 1) rest)
      else
        c :: replaceSeqFuel pat repl fuel rest

/-- Literal multi-character substitution pass. -/
def replaceSeq (pat repl : List Char) (s : List Char) : List Char :=
  replaceSeqFuel pat repl s.length s

/-- A rewrite rule: either a single-character trigger with a lookahead
context, or a literal multi-character substitution. -/
inductive RuleKind where
  | ctxRule : Char → Look → List Char → RuleKind
  | litRule : List Char → List Char → RuleKind
deriving DecidableEq

/-- The replacement text of a rule. -/
def ruleRepl : RuleKind → List Char
  | RuleKind.ctxRule _ _ repl => repl
  | RuleKind.litRule _ repl => repl

/-- Application of one rule as a whole-string pass. -/
def applyRule (r : RuleKind) (s : List Char) : List Char :=
  match r with
  | RuleKind.ctxRule trig look repl => applyCtx trig look repl s
  | RuleKind.litRule pat repl => replaceSeq pat repl s

/-- The 21 ordered passes of `_apply_contextual_rules`
(source lines 107 to 137), in source order. -/
def rules : List RuleKind :=
  [ RuleKind.ctxRule 'ⲁ' (Look.charBoundary 'ⲥ') "æ".data,
    RuleKind.ctxRule 'ⲁ' Look.boundary "ə".data,
    RuleKind.ctxRule 'ⲁ' Look.always "ɑː".data,
    RuleKind.ctxRule 'ⲃ' (Look.twoBoundary 'ⲓ' 'ⲙ') "b".data,
    RuleKind.ctxRule 'ⲃ' (Look.charBoundary 'ⲧ') "v".data,
    RuleKind.ctxRule 'ⲃ' (Look.oneOf "ⲁⲟⲱⲓⲏⲉ".data) "v".data,
    RuleKind.ctxRule 'ⲃ' (Look.justChar 'ⲣ') "b".data,
    RuleKind.ctxRule 'ⲃ' (Look.justChar 'ⲥ') "b".data,
    RuleKind.ctxRule 'ⲃ' Look.boundary "b".data,
    RuleKind.ctxRule 'ⲅ' (Look.justChar 'ⲅ') "n".data,
    RuleKind.ctxRule 'ⲅ' (Look.justChar 'ⲓ') "g".data,
    RuleKind.ctxRule 'ⲅ' (Look.justChar 'ⲉ') "g".data,
    RuleKind.ctxRule 'ⲅ' Look.always "gh".data,
    RuleKind.litRule "ⲉⲏ".data "ey".data,
    RuleKind.ctxRule 'ⲉ' (Look.justChar 'ⲟ') "eɪ".data,
    RuleKind.ctxRule 'ⲏ' Look.always "ee".data,
    RuleKind.litRule "ⲕⲕ".data "kk".data,
    RuleKind.litRule "ⲙⲙ".data "mm".data,
    RuleKind.litRule "ⲛⲛ".data "nn".data,
    RuleKind.litRule "ⲟⲓⲁ".data "ia".data,
    RuleKind.litRule "ⲟⲩⲱ".data "o\x27o".data ]

/-- `_apply_contextual_rules` (source lines 102 to 139): the 21 passes
applied strictly in order. -/
def apply_contextual_rules (text : List Char) : List Char :=
  rules.foldl (fun t r => applyRule r t) text

/-- The basic character map `self.char_map` (source lines 14 to 79), in
dictionary insertion order. -/
def char_map : List (Char × List Char) :=
  [ ('ⲁ', "a".data), ('Ⲁ', "A".data),
    ('ⲃ', "b".data), ('Ⲃ', "B".data),
    ('ⲅ', "g".data), ('Ⲅ', "G".data),
    ('ⲇ', "d".data), ('Ⲇ', "D".data),
    ('ⲉ', "e".data), ('Ⲉ', "E".data),
    ('ⲋ', "f".data), ('Ⲋ', "F".data),
    ('ⲍ', "z".data), ('Ⲍ', "Z".data),
    ('ⲏ', "i".data), ('Ⲏ', "I".data),
    ('ⲑ', "th".data), ('Ⲑ', "TH".data),
    ('ⲓ', "i".data), ('Ⲓ', "I".data),
    ('ⲕ', "k".data), ('Ⲕ', "K".data),
    ('ⲗ', "l".data), ('Ⲗ', "L".data),
    ('ⲙ', "m".data), ('Ⲙ', "M".data),
    ('ⲛ', "n".data), ('Ⲛ', "N".data),
    ('ⲝ', "x".data), ('Ⲝ', "X".data),
    ('ⲟ', "o".data), ('Ⲟ', "O".data),
    ('ⲡ', "p".data), ('Ⲡ', "P".data),
    ('ⲣ', "r".data), ('Ⲣ', "R".data),
    ('ⲥ', "s".data), ('Ⲥ', "S".data),
    ('ⲧ', "t".data), ('Ⲧ', "T".data),
    ('ⲩ', "u".data), ('Ⲩ', "U".data),
    ('ⲫ', "ph".data), ('Ⲫ', "PH".data),
    ('ⲭ', "ch".data), ('Ⲭ', "CH".data),
    ('ⲯ', "ps".data), ('Ⲯ', "PS".data),
    ('ⲱ', "o".data), ('Ⲱ', "O".data),
    ('ϣ', "sh".data), ('Ϣ', "SH".data),
    ('ϥ', "f".data), ('Ϥ', "F".data),
    ('ϧ', "kh".data), ('Ϧ', "KH".data),
    ('ϩ', "h".data), ('Ϩ', "H".data),
    ('ϫ', "j".data), ('Ϫ', "J".data),
    ('ϭ', "ky".data), ('Ϭ', "KY".data),
    ('ϯ', "ti".data), ('Ϯ', "TI".data) ]

/-- One step of the base-mapper loop (source lines 93 to 94):
`result.replace(coptic_char.lower(), latin_char.lower())`. -/
def applyMapEntry (acc : List Char) (kv : Char × List Char) : List Char :=
  match acc with
  | [] => []
  | c :: rest =>
      (if c == pyLower kv.1 then pyLowerStr kv.2 else [c]) ++ applyMapEntry rest kv

/-- The text handed from the contextual rule engine to the base mapper:
`self._apply_contextual_rules(text.lower())` applied to the normalized,
mark-stripped input (source lines 86 to 90). -/
def ruleEngineOutput (text : List Char) : List Char :=
  apply_contextual_rules (pyLowerStr (stripCombining (normalizeNFKD text)))

/-- `translit` (source lines 81 to 100): rule engine output, then the
base-mapper loop over every entry of `char_map` in insertion order.  The
warning print does not change the returned value, so the returned string
is exactly this composition. -/
def translit (text : List Char) : List Char :=
  char_map.foldl applyMapEntry (ruleEngineOutput text)

/-- Membership of a character in the Coptic Unicode block scanned by the
validator (source line 97). -/
def copticResidual (c : Char) : Bool :=
  decide (0x2C80 ≤ c.toNat) && decide (c.toNat ≤ 0x2CFF)

/-- The residual untranslated characters collected by the validator scan
(source line 97). -/
def unmappedChars (s : List Char) : List Char :=
  s.filter (fun c => copticResidual c)

/-- The out-of-band diagnostic content of a whole run: the warning on
source line 99 is emitted exactly when this list is nonempty. -/
def translitDiagnostic (text : List Char) : List Char :=
  unmappedChars (translit text)

/-- The `char_map` entries whose key is already lower case.  Stated from
the words of the specification for the refinement comparison: the pipeline
with the Codepoint Map restricted to its lower-case entries. -/
def lowerEntries : List (Char × List Char) :=
  char_map.filter (fun kv => pyLower kv.1 == kv.1)

/-- The pipeline of the specification refinement: identical to `translit`
except that the base mapper folds only over the lower-case map entries. -/
def translitLowerMapOnly (text : List Char) : List Char :=
  lowerEntries.foldl applyMapEntry (ruleEngineOutput text)

/-- `char_map` regrouped as lower-case and upper-case entry pairs, used to
relate the full fold with the restricted fold. -/
def char_map_pairs : List ((Char × List Char) × (Char × List Char)) :=
  [ (('ⲁ', "a".data), ('Ⲁ', "A".data)),
    (('ⲃ', "b".data), ('Ⲃ', "B".data)),
    (('ⲅ', "g".data), ('Ⲅ', "G".data)),
    (('ⲇ', "d".data), ('Ⲇ', "D".data)),
    (('ⲉ', "e".data), ('Ⲉ', "E".data)),
    (('ⲋ', "f".data), ('Ⲋ', "F".data)),
    (('ⲍ', "z".data), ('Ⲍ', "Z".data)),
    (('ⲏ', "i".data), ('Ⲏ', "I".data)),
    (('ⲑ', "th".data), ('Ⲑ', "TH".data)),
    (('ⲓ', "i".data), ('Ⲓ', "I".data)),
    (('ⲕ', "k".data), ('Ⲕ', "K".data)),
    (('ⲗ', "l".data), ('Ⲗ', "L".data)),
    (('ⲙ', "m".data), ('Ⲙ', "M".data)),
    (('ⲛ', "n".data), ('Ⲛ', "N".data)),
    (('ⲝ', "x".data), ('Ⲝ', "X".data)),
    (('ⲟ', "o".data), ('Ⲟ', "O".data)),
    (('ⲡ', "p".data), ('Ⲡ', "P".data)),
    (('ⲣ', "r".data), ('Ⲣ', "R".data)),
    (('ⲥ', "s".data), ('Ⲥ', "S".data)),
    (('ⲧ', "t".data), ('Ⲧ', "T".data)),
    (('ⲩ', "u".data), ('Ⲩ', "U".data)),
    (('ⲫ', "ph".data), ('Ⲫ', "PH".data)),
    (('ⲭ', "ch".data), ('Ⲭ', "CH".data)),
    (('ⲯ', "ps".data), ('Ⲯ', "PS".data)),
    (('ⲱ', "o".data), ('Ⲱ', "O".data)),
    (('ϣ', "sh".data), ('Ϣ', "SH".data)),
    (('ϥ', "f".data), ('Ϥ', "F".data)),
    (('ϧ', "kh".data), ('Ϧ', "KH".data)),
    (('ϩ', "h".data), ('Ϩ', "H".data)),
    (('ϫ', "j".data), ('Ϫ', "J".data)),
    (('ϭ', "ky".data), ('Ϭ', "KY".data)),
    (('ϯ', "ti".data), ('Ϯ', "TI".data)) ]

/-- Interleaving of entry pairs back into a flat entry list. -/
def interleave : List ((Char × List Char) × (Char × List Char)) → List (Char × List Char)
  | [] => []
  | p :: rest => p.1 :: p.2 :: interleave rest

/-- A rule is inert on a one-character string: a contextual rule with a
different trigger, or a literal rule whose pattern is at least two
characters long. -/
def singletonInert (c : Char) : RuleKind → Bool
  | RuleKind.ctxRule t _ _ => !(t == c)
  | RuleKind.litRule pat _ => decide (2 ≤ pat.length)

/-- A rule that eliminates every occurrence of a character: a contextual
rule triggered by that character with no lookahead condition and a
replacement not containing it. -/
def isCatchAllFor (x : Char) : RuleKind → Bool
  | RuleKind.ctxRule t Look.always repl => x == t && !(repl.contains x)
  | _ => false

/-- Characters of an `applyCtx` pass come from the replacement or from the
input. -/
theorem mem_applyCtx (c trig : Char) (look : Look) (repl : List Char) :
    ∀ (s : List Char), c ∈ applyCtx trig look repl s → c ∈ repl ∨ c ∈ s := by
  intro s h
  induction s with
  | nil => simp [applyCtx] at h
  | cons x rest ih =>
      simp only [applyCtx, List.mem_append] at h
      rcases h with h1 | h1
      · split at h1
        · exact Or.inl h1
        · rcases List.mem_singleton.mp h1 with rfl
          exact Or.inr (List.mem_cons_self _ _)
      · rcases ih h1 with h2 | h2
        · exact Or.inl h2
        · exact Or.inr (List.mem_cons_of_mem x h2)

/-- A contextual pass with no lookahead condition removes every occurrence
of its trigger, provided the replacement does not reintroduce it. -/
theorem applyCtx_always_kill (x : Char) (repl : List Char) (hx : x ∉ repl) :
    ∀ (s : List Char), x ∉ applyCtx x Look.always repl s := by
  intro s
  induction s with
  | nil => simp [applyCtx]
  | cons c rest ih =>
      intro h
      rcases List.mem_append.mp h with h1 | h1
      · by_cases hc : c = x
        · subst hc
          simp only [evalLook, Bool.and_true] at h1
          rw [if_pos (by simp)] at h1
          exact hx h1
        · have hb : (c == x) = false := beq_eq_false_iff_ne.mpr hc
          rw [if_neg (by simp [hb])] at h1
          exact hc (List.mem_singleton.mp h1).symm
      · exact ih h1

/-- Characters of a literal-substitution pass come from the replacement or
from the input. -/
theorem mem_replaceSeqFuel (pat repl : List Char) (c : Char) :
    ∀ (fuel : Nat) (s : List Char), c ∈ replaceSeqFuel pat repl fuel s → c ∈ repl ∨ c ∈ s := by
  intro fuel
  induction fuel with
  | zero =>
      intro s h
      right
      simpa [replaceSeqFuel] using h
  | succ n ih =>
      intro s h
      cases s with
      | nil => simp [replaceSeqFuel] at h
      | cons x rest =>
          simp only [replaceSeqFuel] at h
          split at h
          · rcases List.mem_append.mp h with h1 | h1
            · exact Or.inl h1
            · rcases ih _ h1 with h2 | h2
              · exact Or.inl h2
              · exact Or.inr (List.mem_cons_of_mem x (List.drop_subset _ _ h2))
          · rcases List.mem_cons.mp h with h1 | h1
            · exact Or.inr (h1 ▸ List.mem_cons_self x rest)
            · rcases ih rest h1 with h2 | h2
              · exact Or.inl h2
              · exact Or.inr (List.mem_cons_of_mem x h2)

/-- Characters of a rule pass come from the rule replacement or from the
input. -/
theorem mem_applyRule (c : Char) (r : RuleKind) (s : List Char)
    (h : c ∈ applyRule r s) : c ∈ ruleRepl r ∨ c ∈ s := by
  cases r with
  | ctxRule trig look repl => exact mem_applyCtx c trig look repl s h
  | litRule pat repl => exact mem_replaceSeqFuel pat repl c s.length s h

/-- A catch-all rule for a character removes every occurrence of it. -/
theorem applyRule_kill (x : Char) (r : RuleKind) (h : isCatchAllFor x r = true) :
    ∀ s, x ∉ applyRule r s := by
  cases r with
  | ctxRule t look repl =>
      cases look with
      | always =>
          simp only [isCatchAllFor, Bool.and_eq_true, beq_iff_eq, Bool.not_eq_true'] at h
          obtain ⟨hx, hrepl⟩ := h
          subst hx
          intro s
          apply applyCtx_always_kill
          simpa using hrepl
      | boundary => simp [isCatchAllFor] at h
      | justChar y => simp [isCatchAllFor] at h
      | oneOf ys => simp [isCatchAllFor] at h
      | charBoundary y => simp [isCatchAllFor] at h
      | twoBoundary y z => simp [isCatchAllFor] at h
  | litRule pat repl => simp [isCatchAllFor] at h

/-- Characters of the whole rule pipeline come from some rule replacement
or from the input. -/
theorem mem_foldRules (c : Char) :
    ∀ (l : List RuleKind) (s : List Char),
      c ∈ l.foldl (fun t r => applyRule r t) s →
      (∃ r ∈ l, c ∈ ruleRepl r) ∨ c ∈ s := by
  intro l
  induction l with
  | nil =>
      intro s h
      exact Or.inr (by simpa using h)
  | cons r rest ih =>
      intro s h
      simp only [List.foldl] at h
      rcases ih _ h with ⟨r2, hr2, hc⟩ | hc
      · exact Or.inl ⟨r2, List.mem_cons_of_mem _ hr2, hc⟩
      · rcases mem_applyRule c r s hc with h2 | h2
        · exact Or.inl ⟨r, List.mem_cons_self _ _, h2⟩
        · exact Or.inr h2

/-- Preservation of absence through the rule pipeline. -/
theorem notMem_foldRules (x : Char) (l : List RuleKind) (s : List Char)
    (h1 : ∀ r ∈ l, x ∉ ruleRepl r) (h2 : x ∉ s) :
    x ∉ l.foldl (fun t r => applyRule r t) s := by
  intro h
  rcases mem_foldRules x l s h with ⟨r, hr, hc⟩ | hc
  · exact h1 r hr hc
  · exact h2 hc

/-- If some rule of the pipeline is a catch-all for a character and no
rule reintroduces it, the pipeline output never contains it. -/
theorem notMem_foldRules_catch (x : Char) :
    ∀ (l : List RuleKind), (∀ r ∈ l, x ∉ ruleRepl r) →
      (∃ r ∈ l, isCatchAllFor x r = true) →
      ∀ s, x ∉ l.foldl (fun t r => applyRule r t) s := by
  intro l
  induction l with
  | nil =>
      intro _ h2 _
      rcases h2 with ⟨r, hr, _⟩
      simp at hr
  | cons r rest ih =>
      intro h1 h2 s
      simp only [List.foldl]
      by_cases hc : isCatchAllFor x r = true
      · exact notMem_foldRules x rest _
          (fun q hq => h1 q (List.mem_cons_of_mem _ hq))
          (applyRule_kill x r hc s)
      · rcases h2 with ⟨r2, hr2, hcat⟩
        rcases List.mem_cons.mp hr2 with rfl | hr3
        · exact absurd hcat hc
        · exact ih (fun q hq => h1 q (List.mem_cons_of_mem _ hq)) ⟨r2, hr3, hcat⟩ _

/-- The catch-all passes 3, 13 and 16 eliminate alpha, gamma and eta, and
no later pass reintroduces them: the output of the contextual rule engine
never contains a raw alpha, gamma or eta, whatever the input. -/
theorem rules_no_raw (x : Char) (h1 : ∀ r ∈ rules, x ∉ ruleRepl r)
    (h2 : ∃ r ∈ rules, isCatchAllFor x r = true) (t : List Char) :
    x ∉ apply_contextual_rules t :=
  notMem_foldRules_catch x rules h1 h2 t

/-- Characters of a base-mapper step come from the lowered map value or
from the input. -/
theorem mem_applyMapEntry (c : Char) (kv : Char × List Char) :
    ∀ (acc : List Char), c ∈ applyMapEntry acc kv → c ∈ pyLowerStr kv.2 ∨ c ∈ acc := by
  intro acc h
  induction acc with
  | nil => simp [applyMapEntry] at h
  | cons x rest ih =>
      simp only [applyMapEntry, List.mem_append] at h
      rcases h with h1 | h1
      · split at h1
        · exact Or.inl h1
        · rcases List.mem_singleton.mp h1 with rfl
          exact Or.inr (List.mem_cons_self _ _)
      · rcases ih h1 with h2 | h2
        · exact Or.inl h2
        · exact Or.inr (List.mem_cons_of_mem x h2)

/-- A base-mapper step removes every occurrence of its (lowered) key,
provided the lowered value does not reintroduce it. -/
theorem applyMapEntry_kill (kv : Char × List Char)
    (h : pyLower kv.1 ∉ pyLowerStr kv.2) :
    ∀ acc, pyLower kv.1 ∉ applyMapEntry acc kv := by
  intro acc
  induction acc with
  | nil => simp [applyMapEntry]
  | cons c rest ih =>
      intro hmem
      rcases List.mem_append.mp hmem with h1 | h1
      · by_cases hc : c = pyLower kv.1
        · rw [if_pos (by simp [hc])] at h1
          exact h h1
        · have hb : (c == pyLower kv.1) = false := beq_eq_false_iff_ne.mpr hc
          rw [if_neg (by simp [hb])] at h1
          exact hc (List.mem_singleton.mp h1).symm
      · exact ih h1

/-- A base-mapper step whose key does not occur in the text is the
identity. -/
theorem applyMapEntry_of_notMem (kv : Char × List Char) :
    ∀ (acc : List Char), pyLower kv.1 ∉ acc → applyMapEntry acc kv = acc := by
  intro acc
  induction acc with
  | nil => intro _; rfl
  | cons c rest ih =>
      intro h
      have hc : (c == pyLower kv.1) = false :=
        beq_eq_false_iff_ne.mpr (fun e => h (e ▸ List.mem_cons_self c rest))
      show (if (c == pyLower kv.1) = true then pyLowerStr kv.2 else [c]) ++
          applyMapEntry rest kv = c :: rest
      rw [if_neg (by simp [hc]), List.singleton_append,
        ih (fun hm => h (List.mem_cons_of_mem c hm))]

/-- Characters of the whole base-mapper fold come from some lowered map
value or from the input. -/
theorem mem_foldMap (c : Char) :
    ∀ (l : List (Char × List Char)) (s : List Char),
      c ∈ l.foldl applyMapEntry s →
      (∃ kv ∈ l, c ∈ pyLowerStr kv.2) ∨ c ∈ s := by
  intro l
  induction l with
  | nil =>
      intro s h
      exact Or.inr (by simpa using h)
  | cons kv rest ih =>
      intro s h
      simp only [List.foldl] at h
      rcases ih _ h with ⟨kv2, hkv2, hc⟩ | hc
      · exact Or.inl ⟨kv2, List.mem_cons_of_mem _ hkv2, hc⟩
      · rcases mem_applyMapEntry c kv s hc with h2 | h2
        · exact Or.inl ⟨kv, List.mem_cons_self _ _, h2⟩
        · exact Or.inr h2

/-- Preservation of absence through the base-mapper fold. -/
theorem notMem_foldMap (x : Char) (l : List (Char × List Char)) (s : List Char)
    (h1 : ∀ kv ∈ l, x ∉ pyLowerStr kv.2) (h2 : x ∉ s) :
    x ∉ l.foldl applyMapEntry s := by
  intro h
  rcases mem_foldMap x l s h with ⟨kv, hkv, hc⟩ | hc
  · exact h1 kv hkv hc
  · exact h2 hc

/-- If some map entry lowers its key to a given character, and no lowered
value contains that character, the base-mapper output never contains
it. -/
theorem notMem_foldMap_key (x : Char) :
    ∀ (l : List (Char × List Char)), (∀ kv ∈ l, x ∉ pyLowerStr kv.2) →
      (∃ kv ∈ l, pyLower kv.1 = x) →
      ∀ s, x ∉ l.foldl applyMapEntry s := by
  intro l
  induction l with
  | nil =>
      intro _ h2 _
      rcases h2 with ⟨kv, hkv, _⟩
      simp at hkv
  | cons kv rest ih =>
      intro h1 h2 s
      simp only [List.foldl]
      by_cases hc : pyLower kv.1 = x
      · refine notMem_foldMap x rest _
          (fun q hq => h1 q (List.mem_cons_of_mem _ hq)) ?_
        have := applyMapEntry_kill kv (hc ▸ h1 kv (List.mem_cons_self _ _)) s
        exact hc ▸ this
      · rcases h2 with ⟨kv2, hkv2, hkey⟩
        rcases List.mem_cons.mp hkv2 with rfl | hr3
        · exact absurd hkey hc
        · exact ih (fun q hq => h1 q (List.mem_cons_of_mem _ hq)) ⟨kv2, hr3, hkey⟩ _

/-- No lower-case image is itself an upper-case table key. -/
theorem lower_table_closed :
    ∀ p ∈ lower_table, lower_table.find? (fun q => q.1 == p.2) = none := by decide

/-- Lower-casing is idempotent. -/
theorem pyLower_idem (c : Char) : pyLower (pyLower c) = pyLower c := by
  cases h : lower_table.find? (fun p => p.1 == c) with
  | none =>
      have hc : pyLower c = c := by unfold pyLower; rw [h]
      rw [hc]
      exact hc
  | some p =>
      have hp : pyLower c = p.2 := by unfold pyLower; rw [h]
      have hmem : p ∈ lower_table := List.mem_of_find?_eq_some h
      have h2 : pyLower p.2 = p.2 := by
        unfold pyLower
        rw [lower_table_closed p hmem]
      rw [hp, h2]

/-- Every character of a lowered string is a fixed point of lowering. -/
theorem mem_pyLowerStr_fixed {c : Char} {s : List Char} (h : c ∈ pyLowerStr s) :
    pyLower c = c := by
  unfold pyLowerStr at h
  rcases List.mem_map.mp h with ⟨d, _, rfl⟩
  exact pyLower_idem d

/-- Mapping a function that fixes every element is the identity. -/
theorem map_id_of_fixed (f : Char → Char) :
    ∀ (l : List Char), (∀ c ∈ l, f c = c) → l.map f = l
  | [] => fun _ => rfl
  | x :: rest => fun h => by
      simp only [List.map]
      rw [h x (List.mem_cons_self x rest),
        map_id_of_fixed f rest (fun c hc => h c (List.mem_cons_of_mem x hc))]

/-- A base-mapper step repeated with the same lowered key is the
identity the second time. -/
theorem applyMapEntry_dup (s : List Char) (kv kvu : Char × List Char)
    (h1 : pyLower kvu.1 = pyLower kv.1) (h3 : pyLower kv.1 ∉ pyLowerStr kv.2) :
    applyMapEntry (applyMapEntry s kv) kvu = applyMapEntry s kv := by
  have hk : pyLower kvu.1 ∉ applyMapEntry s kv := by
    rw [h1]
    exact applyMapEntry_kill kv h3 s
  exact applyMapEntry_of_notMem kvu _ hk

/-- Folding over interleaved lower/upper entry pairs equals folding over
the lower entries alone, when each upper key lowers to its partner lower
key and no lowered value contains its own key. -/
theorem foldl_interleave :
    ∀ (ps : List ((Char × List Char) × (Char × List Char))),
      (∀ p ∈ ps, pyLower p.2.1 = pyLower p.1.1 ∧ pyLower p.1.1 ∉ pyLowerStr p.1.2) →
      ∀ s, (interleave ps).foldl applyMapEntry s = (ps.map Prod.fst).foldl applyMapEntry s
  | [] => fun _ _ => rfl
  | p :: rest => fun h s => by
      have hp := h p (List.mem_cons_self p rest)
      simp only [interleave, List.map, List.foldl]
      rw [applyMapEntry_dup s p.1 p.2 hp.1 hp.2]
      exact foldl_interleave rest (fun q hq => h q (List.mem_cons_of_mem p hq)) _

/-- A pattern of length at least two never matches inside a
one-character string. -/
theorem isPrefixOf_singleton_false :
    ∀ (pat : List Char) (c : Char), 2 ≤ pat.length → pat.isPrefixOf [c] = false
  | [], _, h => by simp at h
  | [_], _, h => by simp at h
  | _ :: _ :: _, c, _ => by simp [List.isPrefixOf]

/-- A rule that is inert on a one-character string leaves it unchanged. -/
theorem applyRule_singleton (c : Char) (r : RuleKind) (h : singletonInert c r = true) :
    applyRule r [c] = [c] := by
  cases r with
  | ctxRule t look repl =>
      have h2 : (t == c) = false := by simpa [singletonInert] using h
      have ht : (c == t) = false :=
        beq_eq_false_iff_ne.mpr (fun e => (beq_eq_false_iff_ne.mp h2) e.symm)
      simp [applyRule, applyCtx, ht]
  | litRule pat repl =>
      have h2 : 2 ≤ pat.length := by simpa [singletonInert] using h
      simp [applyRule, replaceSeq, replaceSeqFuel, isPrefixOf_singleton_false pat c h2]

/-- The rule pipeline leaves a one-character string unchanged when every
rule is inert on it. -/
theorem foldRules_singleton (c : Char) :
    ∀ (l : List RuleKind), (∀ r ∈ l, singletonInert c r = true) →
      l.foldl (fun t r => applyRule r t) [c] = [c]
  | [] => fun _ => rfl
  | r :: rest => fun h => by
      simp only [List.foldl]
      rw [applyRule_singleton c r (h r (List.mem_cons_self r rest))]
      exact foldRules_singleton c rest (fun q hq => h q (List.mem_cons_of_mem r hq))

/-- The base-mapper fold leaves a one-character string unchanged when no
entry key lowers to that character. -/
theorem foldMap_singleton (c : Char) :
    ∀ (l : List (Char × List Char)), (∀ kv ∈ l, pyLower kv.1 ≠ c) →
      l.foldl applyMapEntry [c] = [c]
  | [] => fun _ => rfl
  | kv :: rest => fun h => by
      simp only [List.foldl]
      have he : applyMapEntry [c] kv = [c] :=
        applyMapEntry_of_notMem kv [c] (by
          intro hmem
          exact h kv (List.mem_cons_self kv rest) (List.mem_singleton.mp hmem))
      rw [he]
      exact foldMap_singleton c rest (fun q hq => h q (List.mem_cons_of_mem kv hq))

/-- Pass 3 is a catch-all for alpha and no later replacement contains a
raw alpha, so the rule engine output never contains one. -/
theorem no_alpha_in_rules (t : List Char) : 'ⲁ' ∉ apply_contextual_rules t :=
  rules_no_raw 'ⲁ' (by decide) (by decide) t

/-- Pass 13 is a catch-all for gamma and no later replacement contains a
raw gamma, so the rule engine output never contains one. -/
theorem no_gamma_in_rules (t : List Char) : 'ⲅ' ∉ apply_contextual_rules t :=
  rules_no_raw 'ⲅ' (by decide) (by decide) t

/-- Pass 16 is a catch-all for eta and no later replacement contains a
raw eta, so the rule engine output never contains one. -/
theorem no_eta_in_rules (t : List Char) : 'ⲏ' ∉ apply_contextual_rules t :=
  rules_no_raw 'ⲏ' (by decide) (by decide) t

/-- Claim C1, counterexample: for the input omicron+iota+alpha the output
of transliterate is "oiə", not "ia" as the claim states: the word-final
alpha is rewritten by pass 2 before the literal-sequence pass 20 runs, so
pass 20 never matches. -/
theorem C1_counterexample :
    translit "ⲟⲓⲁ".data = "oiə".data ∧ translit "ⲟⲓⲁ".data ≠ "ia".data := by
  decide

/-- Claim C1, amended: transliterate of omicron+iota+alpha returns "oiə":
the alpha stands at a word boundary, so pass 2 replaces it with the schwa
before the literal rule 20 can see the sequence, and the base mapper then
maps the omicron and the iota. -/
theorem C1_amended : translit "ⲟⲓⲁ".data = "oiə".data := by decide

/-- Claim C2, counterexample: for the input beta+pi, the text handed to
the base mapper still contains the raw beta: none of the passes 4 to 9
matches a beta followed by a non-vowel word character. -/
theorem C2_counterexample : 'ⲃ' ∈ ruleEngineOutput "ⲃⲡ".data := by decide

/-- Claim C2, amended: for every input, the intermediate text handed to
the base mapper contains no raw alpha, gamma or eta (passes 3, 13 and 16
are global catch-alls and no later replacement reintroduces them); beta
however is not exhausted by passes 4 to 9. -/
theorem C2_amended (text : List Char) :
    'ⲁ' ∉ ruleEngineOutput text ∧ 'ⲅ' ∉ ruleEngineOutput text ∧
      'ⲏ' ∉ ruleEngineOutput text :=
  ⟨no_alpha_in_rules _, no_gamma_in_rules _, no_eta_in_rules _⟩

/-- Claim C3, counterexample: transliterate of alpha+gamma+alpha+pi+eta
returns "ɑːghɑːpee", not "ɑːgəpee" as the claim states. -/
theorem C3_counterexample :
    translit "ⲁⲅⲁⲡⲏ".data = "ɑːghɑːpee".data ∧
      translit "ⲁⲅⲁⲡⲏ".data ≠ "ɑːgəpee".data := by
  decide

/-- Claim C3, amended: transliterate of alpha+gamma+alpha+pi+eta returns
"ɑːghɑːpee": neither alpha stands at a word boundary, so both take the
elsewhere rule "ɑː"; by the time the gamma passes run, the second alpha
has already been rewritten, so the gamma is followed by the phonetic
letter and takes the catch-all "gh"; eta becomes "ee" and pi "p". -/
theorem C3_amended : translit "ⲁⲅⲁⲡⲏ".data = "ɑːghɑːpee".data := by decide

/-- Claim C4, counterexample: the Latin letter x is covered by neither
the rule set nor the map keys; transliterate passes it through unchanged
as a non-empty output, but no diagnostic is raised, because the validator
scan only covers the Coptic Unicode block. -/
theorem C4_counterexample :
    (∀ r ∈ rules, singletonInert 'x' r = true) ∧
      (∀ kv ∈ char_map, pyLower kv.1 ≠ 'x') ∧
      translit "x".data = "x".data ∧ translitDiagnostic "x".data = [] := by
  decide

/-- Claim C4, amended: a single codepoint covered by neither the rule set
nor the map keys, and untouched by normalization and lower-casing, is
passed through unchanged as a non-empty output; the out-of-band
diagnostic is raised exactly when the codepoint lies in the Coptic
Unicode block U+2C80 to U+2CFF, and it never alters the returned
string. -/
theorem C4_amended (c : Char)
    (h1 : ∀ r ∈ rules, singletonInert c r = true)
    (h2 : ∀ kv ∈ char_map, pyLower kv.1 ≠ c)
    (h3 : pyLower c = c)
    (h4 : combining c = false) :
    translit [c] = [c] ∧ translit [c] ≠ [] ∧
      (translitDiagnostic [c] ≠ [] ↔ copticResidual c = true) := by
  have hstrip : stripCombining (normalizeNFKD [c]) = [c] := by
    simp [stripCombining, normalizeNFKD, List.filter, h4]
  have hlow : pyLowerStr [c] = [c] := by simp [pyLowerStr, h3]
  have hrules : apply_contextual_rules [c] = [c] := foldRules_singleton c rules h1
  have heng : ruleEngineOutput [c] = [c] := by
    unfold ruleEngineOutput
    rw [hstrip, hlow, hrules]
  have ht : translit [c] = [c] := by
    unfold translit
    rw [heng]
    exact foldMap_singleton c char_map h2
  refine ⟨ht, by simp [ht], ?_⟩
  unfold translitDiagnostic unmappedChars
  rw [ht]
  cases hres : copticResidual c with
  | true => simp [List.filter, hres]
  | false => simp [List.filter, hres]

/-- Claim C4, witness: the old-Coptic letter at U+2CB3 is uncovered, is
returned unchanged, and does raise the diagnostic. -/
theorem C4_witness :
    translit ['ⲳ'] = ['ⲳ'] ∧ translit ['ⲳ'] ≠ [] ∧
      (translitDiagnostic ['ⲳ'] ≠ [] ↔ copticResidual 'ⲳ' = true) :=
  C4_amended 'ⲳ' (by decide) (by decide) (by decide) (by decide)

/-- Claim C5: for every input consisting solely of alpha, beta, gamma and
eta, the final output of transliterate contains no raw alpha, beta, gamma
or eta.  Alpha, gamma and eta are already removed by the rule engine;
beta can reach the base mapper but its map entry then consumes it, and no
replacement anywhere reintroduces any of the four. -/
theorem C5_case_exhaustion (s : List Char)
    (_hs : ∀ c ∈ s, c = 'ⲁ' ∨ c = 'ⲃ' ∨ c = 'ⲅ' ∨ c = 'ⲏ') :
    'ⲁ' ∉ translit s ∧ 'ⲃ' ∉ translit s ∧ 'ⲅ' ∉ translit s ∧ 'ⲏ' ∉ translit s := by
  refine ⟨?_, ?_, ?_, ?_⟩
  · exact notMem_foldMap 'ⲁ' char_map _ (by decide) (no_alpha_in_rules _)
  · exact notMem_foldMap_key 'ⲃ' char_map (by decide) (by decide) _
  · exact notMem_foldMap 'ⲅ' char_map _ (by decide) (no_gamma_in_rules _)
  · exact notMem_foldMap 'ⲏ' char_map _ (by decide) (no_eta_in_rules _)

/-- Claim C5, witness at the input alpha+beta+gamma+eta. -/
theorem C5_witness :
    (∀ c ∈ "ⲁⲃⲅⲏ".data, c = 'ⲁ' ∨ c = 'ⲃ' ∨ c = 'ⲅ' ∨ c = 'ⲏ') ∧
      ('ⲁ' ∉ translit "ⲁⲃⲅⲏ".data ∧ 'ⲃ' ∉ translit "ⲁⲃⲅⲏ".data ∧
        'ⲅ' ∉ translit "ⲁⲃⲅⲏ".data ∧ 'ⲏ' ∉ translit "ⲁⲃⲅⲏ".data) :=
  ⟨by decide, C5_case_exhaustion "ⲁⲃⲅⲏ".data (by decide)⟩

/-- Claim C6: for every input, the pipeline with the map restricted to
its lower-case entries returns the same output as the full pipeline: the
upper-case entry of each letter directly follows its lower-case partner,
lowers to the same key and value, and therefore finds nothing left to
replace. -/
theorem C6_lower_map_equiv (text : List Char) :
    translit text = translitLowerMapOnly text := by
  have h1 : char_map = interleave char_map_pairs := by decide
  have h2 : lowerEntries = char_map_pairs.map Prod.fst := by decide
  unfold translit translitLowerMapOnly
  rw [h1, h2]
  exact foldl_interleave char_map_pairs (by decide) _

/-- Claim C7: epsilon immediately followed by eta is claimed whole by
pass 14, so the eta is not rewritten to "ee" by pass 16:
transliterate of epsilon+eta is "ey". -/
theorem C7_epsilon_eta : translit "ⲉⲏ".data = "ey".data := by decide

/-- Claim C8: the end-to-end example: transliterate of the word
pi+nu+omicron+upsilon+tau+epsilon returns "pnoute". -/
theorem C8_pnoute : translit "ⲡⲛⲟⲩⲧⲉ".data = "pnoute".data := by decide

/-- Claim C9: transliterate of the empty string is the empty string; the
function is total and pure by construction in this embedding. -/
theorem C9_empty : translit [] = [] := by decide

/-- Claim C10: for every input, the output of transliterate is unchanged
by lower-casing: every character of the output is either a lowered input
character (and lowering is idempotent) or comes from a rule replacement
or a lowered map value, all of which are fixed points of lowering. -/
theorem C10_output_lowercase (s : List Char) :
    pyLowerStr (translit s) = translit s := by
  unfold pyLowerStr
  apply map_id_of_fixed
  intro c hc
  unfold translit at hc
  rcases mem_foldMap c char_map (ruleEngineOutput s) hc with ⟨kv, _, hv⟩ | hc3
  · exact mem_pyLowerStr_fixed hv
  · unfold ruleEngineOutput apply_contextual_rules at hc3
    rcases mem_foldRules c rules _ hc3 with ⟨r, hr, hrep⟩ | hc4
    · exact (by decide : ∀ r ∈ rules, ∀ c2 ∈ ruleRepl r, pyLower c2 = c2) r hr c hrep
    · exact mem_pyLowerStr_fixed hc4

end CopticTranslit
